import Mathlib

/-!
Verification of the naming/import-resolution core of the `mirip` mock
generator, shallowly embedded in Lean.

The embedding follows `internal/registry/package.go` (the `Package`
qualifier logic, the `MethodScope` variable allocator) and the command
entry point (`run`).  Go strings are modelled by `String`, Go maps by
association lists (with the iteration-order caveat noted at
`resolveImportVarConflicts`), Go `nil` pointers by `Option`, and
`strconv.Itoa` by a fuel-based decimal printer `itoa` so that every
definition evaluates by kernel reduction.
-/

/-- Decimal digit character, `digitChar d = '0' + d` for `d < 10`
(model of the digit emission inside `strconv.Itoa`). -/
def digitChar (d : Nat) : Char := Char.ofNat (48 + d)

/-- Fuel-based core of the decimal printer: mirrors the divide-by-ten
loop of `strconv.Itoa`; the fuel argument only guarantees structural
termination and is always supplied large enough. -/
def itoaCore : Nat → Nat → List Char → List Char
  | 0, _, acc => acc
  | fuel + 1, n, acc =>
    if n < 10 then digitChar n :: acc
    else itoaCore fuel (n / 10) (digitChar (n % 10) :: acc)

/-- The most-significant-first decimal digit list of `n`. -/
def digitsOf (n : Nat) : List Char := itoaCore (n + 1) n []

/-- Model of Go `strconv.Itoa` on non-negative integers. -/
def itoa (n : Nat) : String := ⟨digitsOf n⟩

/-- Decimal evaluation of a digit string, used to prove `itoa` injective. -/
def decVal (cs : List Char) : Nat :=
  cs.foldl (fun a c => a * 10 + (c.toNat - 48)) 0

theorem itoaCore_succ (fuel n : Nat) (acc : List Char) :
    itoaCore (fuel + 1) n acc =
      if n < 10 then digitChar n :: acc
      else itoaCore fuel (n / 10) (digitChar (n % 10) :: acc) := rfl

theorem digitsOf_lt {n : Nat} (h : n < 10) : digitsOf n = [digitChar n] := by
  cases n with
  | zero => rfl
  | succ m =>
    show itoaCore (m + 1 + 1) (m + 1) [] = _
    rw [itoaCore_succ, if_pos h]

theorem itoaCore_eq_digitsOf :
    ∀ n, ∀ f acc, n < 10 ^ (f + 1) →
      itoaCore (f + 1) n acc = digitsOf n ++ acc := by
  intro n
  induction n using Nat.strong_induction_on with
  | _ n ih =>
    intro f acc h
    by_cases h10 : n < 10
    · rw [itoaCore_succ, if_pos h10, digitsOf_lt h10]
      rfl
    · have hd : n / 10 < n := Nat.div_lt_self (by omega) (by omega)
      cases f with
      | zero =>
        exfalso
        have : (10 : Nat) ^ 1 = 10 := by norm_num
        omega
      | succ f =>
        have hlt : n / 10 < 10 ^ (f + 1) := by
          apply Nat.div_lt_of_lt_mul
          calc n < 10 ^ (f + 2) := h
            _ = 10 * 10 ^ (f + 1) := by ring
        rw [itoaCore_succ, if_neg h10, ih (n / 10) hd f _ hlt]
        have hright : digitsOf n = digitsOf (n / 10) ++ [digitChar (n % 10)] := by
          have hn1 : ∃ m, n = m + 1 := ⟨n - 1, by omega⟩
          obtain ⟨m, rfl⟩ := hn1
          show itoaCore (m + 1 + 1) (m + 1) [] = _
          rw [itoaCore_succ, if_neg h10]
          have hm : ∃ f', m = f' + 1 := ⟨m - 1, by omega⟩
          obtain ⟨f', rfl⟩ := hm
          have h2 : f' + 1 + 1 < 10 ^ (f' + 1 + 1) := Nat.lt_pow_self (by omega) _
          rw [ih ((f' + 1 + 1) / 10) hd (f' + 1) _ (Nat.lt_trans hd h2)]
        rw [hright, List.append_assoc]
        rfl

theorem digitsOf_step {n : Nat} (h : ¬ n < 10) :
    digitsOf n = digitsOf (n / 10) ++ [digitChar (n % 10)] := by
  have hn1 : ∃ m, n = m + 1 := ⟨n - 1, by omega⟩
  obtain ⟨m, rfl⟩ := hn1
  show itoaCore (m + 1 + 1) (m + 1) [] = _
  rw [itoaCore_succ, if_neg h]
  have hd : (m + 1) / 10 < m + 1 := Nat.div_lt_self (by omega) (by omega)
  have hm : ∃ f', m = f' + 1 := ⟨m - 1, by omega⟩
  obtain ⟨f', rfl⟩ := hm
  have h2 : f' + 1 + 1 < 10 ^ (f' + 1 + 1) := Nat.lt_pow_self (by omega) _
  rw [itoaCore_eq_digitsOf ((f' + 1 + 1) / 10) (f' + 1) _ (Nat.lt_trans hd h2)]

theorem digitChar_toNat {d : Nat} (h : d < 10) : (digitChar d).toNat = 48 + d := by
  interval_cases d <;> rfl

theorem decVal_digitsOf (n : Nat) : decVal (digitsOf n) = n := by
  induction n using Nat.strong_induction_on with
  | _ n ih =>
    by_cases h10 : n < 10
    · rw [digitsOf_lt h10]
      simp [decVal, digitChar_toNat h10]
    · rw [digitsOf_step h10]
      have hd : n / 10 < n := Nat.div_lt_self (by omega) (by omega)
      simp only [decVal, List.foldl_append]
      have := ih (n / 10) hd
      simp only [decVal] at this
      rw [this]
      simp only [List.foldl_cons, List.foldl_nil]
      rw [digitChar_toNat (Nat.mod_lt _ (by omega))]
      omega

theorem itoa_injective {n m : Nat} (h : itoa n = itoa m) : n = m := by
  have hdata : digitsOf n = digitsOf m := congrArg String.data h
  have := decVal_digitsOf n
  rw [hdata, decVal_digitsOf m] at this
  omega

theorem digitsOf_ne_nil (n : Nat) : digitsOf n ≠ [] := by
  by_cases h10 : n < 10
  · rw [digitsOf_lt h10]
    simp
  · rw [digitsOf_step h10]
    simp

theorem itoa_length_pos (n : Nat) : 0 < (itoa n).length := by
  have := digitsOf_ne_nil n
  show 0 < (digitsOf n).length
  cases hd : digitsOf n with
  | nil => exact absurd hd this
  | cons c cs => simp

example : itoa 0 = "0" := by decide
example : itoa 12 = "12" := by decide
example : itoa 120 = "120" := by decide

namespace Mirip

/-- A `go/types` package as seen by the generator: its raw import path
(`pkg.Path()`) and its declared short name (`pkg.Name()`). -/
structure GoPackage where
  path : String
  name : String
deriving DecidableEq

/-- `Package` from `internal/registry/package.go`: an imported package
with an optional alias.  The `pkg *types.Package` field is modelled by
`GoPackage`; a nil `*Package` receiver is modelled as `none` at the
call sites that check for it. -/
structure Package where
  pkg : GoPackage
  Alias : String
deriving DecidableEq

/-- Model of Go `strings.Split(s, sep)` for a one-character separator
(structurally recursive so it evaluates in the kernel; `""` splits to
`[""]` exactly as in Go). -/
def splitOnChar (sep : Char) : List Char → List (List Char)
  | [] => [[]]
  | c :: cs =>
    if c = sep then [] :: splitOnChar sep cs
    else
      match splitOnChar sep cs with
      | [] => [[c]]
      | g :: gs => (c :: g) :: gs

/-- The `/`-separated segments of a path string. -/
def strSegs (s : String) : List String := (splitOnChar '/' s.data).map fun cs => ⟨cs⟩

/-- Join segments back with `/` (inverse of `strSegs` on vendor-free paths). -/
def joinSlash (segs : List String) : String :=
  match segs with
  | [] => ""
  | s :: ss => ss.foldl (fun acc seg => acc ++ "/" ++ seg) s

/-- Drop every segment up to and including the last `vendor` segment. -/
def stripVendorSegs (segs : List String) : List String :=
  segs.foldl (fun acc seg => if seg = "vendor" then [] else acc ++ [seg]) []

/-- Modelled from the spec: the repository's `stripVendorPath` function
is referenced from `package.go` but its definition is not under `src/`.
Per the spec, vendor-stripping discards everything up to and including
a `vendor/` path segment, since vendored copies share the identity of
the un-vendored package. -/
def stripVendorPath (p : String) : String :=
  joinSlash (stripVendorSegs (strSegs p))

/-- `Package.Qualifier` (`package.go` lines 28-38): empty string for a
nil receiver, the alias when set, otherwise the declared short name. -/
def Qualifier : Option Package → String
  | none => ""
  | some p => if p.Alias ≠ "" then p.Alias else p.pkg.name

/-- `Package.Path` (`package.go` lines 57-63): the full import path
without vendor prefix, empty for a nil receiver. -/
def pkgPath : Option Package → String
  | none => ""
  | some p => stripVendorPath p.pkg.path

/-- The `replacer` of `package.go` lines 8-17: a Go `strings.Replacer`
deleting `go-`, `-go`, `-`, `_`, `.`, `@`, `+`, `~`.  Scans left to
right; at each position the earliest-listed matching pattern wins,
exactly as in Go's generic replacer. -/
def replaceChars : List Char → List Char
  | 'g' :: 'o' :: '-' :: rest => replaceChars rest
  | '-' :: 'g' :: 'o' :: rest => replaceChars rest
  | '-' :: rest => replaceChars rest
  | '_' :: rest => replaceChars rest
  | '.' :: rest => replaceChars rest
  | '@' :: rest => replaceChars rest
  | '+' :: rest => replaceChars rest
  | '~' :: rest => replaceChars rest
  | c :: rest => c :: replaceChars rest
  | [] => []

/-- ASCII lower-casing (Go's `strings.ToLower`; identical on the ASCII
range that package path segments use). -/
def toLowerStr (s : String) : String := ⟨s.data.map Char.toLower⟩

/-- `Package.uniqueName` (`package.go` lines 44-54): split the
vendor-stripped path on `/`, reverse the segments, and concatenate the
first `min(len, lvl+1)` sanitized lower-cased segments, each prepended
in front of the accumulated name. -/
def Package.uniqueName (p : Package) (lvl : Nat) : String :=
  let pp := (strSegs (pkgPath (some p))).reverse
  (pp.take (min pp.length (lvl + 1))).foldl
    (fun name seg => toLowerStr ⟨replaceChars seg.data⟩ ++ name) ""

example : Package.uniqueName ⟨⟨"github.com/pkg/errors", "errors"⟩, ""⟩ 0 = "errors" := by decide
example : Package.uniqueName ⟨⟨"github.com/pkg/errors", "errors"⟩, ""⟩ 1 = "pkgerrors" := by decide
example : Package.uniqueName ⟨⟨"a/go-kit", "kit"⟩, ""⟩ 0 = "kit" := by decide
example : stripVendorPath "a/vendor/b/c" = "b/c" := by decide
example : stripVendorPath "a/b" = "a/b" := by decide

end Mirip

namespace Mirip

mutual
/-- The recursive type-node graph supplied by `go/types`: the closed
set of cases that `populateImports` (`package.go` lines 152-196)
switches over.  Lists of nodes (struct fields, interface methods and
embedded types, signature params/results) are a mutually inductive
list so that all recursion stays structural. -/
inductive TypeNode where
  | basic (name : String)
  | named (pkg : Option GoPackage) (name : String)
  | array (elem : TypeNode)
  | slice (elem : TypeNode)
  | ptr (elem : TypeNode)
  | mapT (key elem : TypeNode)
  | chan (elem : TypeNode)
  | struct (fields : TypeNodeList)
  | iface (methods : TypeNodeList) (embedded : TypeNodeList)
  | signature (params : TypeNodeList) (results : TypeNodeList)
inductive TypeNodeList where
  | nil
  | cons (head : TypeNode) (tail : TypeNodeList)
end

/-- A `*types.Var`: declared name (possibly `""` or `"_"`) and type. -/
structure GoVar where
  name : String
  ty : TypeNode

/-- `Var` from the method scope: the underlying declared variable, its
dependent-package set, the mock package path back-reference, and the
allocated `Name` (mutated in place by the conflict-resolution code). -/
structure Var where
  vr : GoVar
  imports : List (String × Package)
  miripPkgPath : String
  Name : String

/-- `MethodScope` (`package.go`): the ordered `vars` sequence and the
`conflicted` name set (a Go `map[string]bool`, modelled as the list of
names set to true).  The `registry *Registry` pointer is threaded
explicitly through the operations instead of being stored. -/
structure MethodScope where
  miripPkgPath : String
  vars : List Var
  conflicted : List String

/-- The process-wide import table of `Registry`, keyed by
vendor-stripped import path, in insertion order. -/
structure Registry where
  imports : List (String × Package)

/-- Modelled from the spec: `Registry.searchImport` is called by
`AddVar` but defined outside `src/`.  Per the spec a candidate var
name "collides with any registered package qualifier", so the lookup
is by qualifier. -/
def Registry.searchImport (r : Registry) (nm : String) : Option Package :=
  (r.imports.find? fun e => Qualifier (some e.2) = nm).map (·.2)

/-- Depth-escalation loop for a fresh package whose short name is
taken: try `uniqueName 0`, `uniqueName 1`, ... until the candidate is
not a registered qualifier (fuel = number of path segments, past which
candidates stop changing). -/
def escalateFrom (qs : List String) (p : Package) : Nat → Nat → String
  | 0, lvl => p.uniqueName lvl
  | fuel + 1, lvl =>
    if qs.contains (p.uniqueName lvl) then escalateFrom qs p fuel (lvl + 1)
    else p.uniqueName lvl

/-- Modelled from the spec: `Registry.AddImport` is called by
`populateImports` but defined outside `src/`.  Per the spec it returns
the existing `Package` when the (vendor-stripped) path is already
registered, otherwise allocates one, escalating disambiguation via
`uniqueName` when the declared short name already collides with a
registered qualifier. -/
def Registry.AddImport (r : Registry) (pkg : GoPackage) : Registry × Package :=
  let path := stripVendorPath pkg.path
  match r.imports.find? (fun e => e.1 = path) with
  | some e => (r, e.2)
  | none =>
    let qs := r.imports.map fun e => Qualifier (some e.2)
    let base : Package := ⟨pkg, ""⟩
    let p :=
      if qs.contains pkg.name then
        (⟨pkg, escalateFrom qs base (strSegs path).length 0⟩ : Package)
      else base
    (⟨r.imports ++ [(path, p)]⟩, p)

/-- Go map assignment `imports[path] = pkg` on the association-list
model: overwrite in place if the key exists, else append. -/
def mapInsert (m : List (String × Package)) (k : String) (v : Package) :
    List (String × Package) :=
  if (m.find? fun e => e.1 = k).isSome then
    m.map fun e => if e.1 = k then (k, v) else e
  else m ++ [(k, v)]

mutual
/-- `MethodScope.populateImports` (`package.go` lines 152-196):
recursively walk a type, registering with the registry the owning
package of every `Named` type and recording it in the `imports` map;
arrays, slices, signatures (params then results), maps (key then
value), channels, pointers, anonymous structs and anonymous interfaces
(explicit methods then embedded types) are unwrapped; `Basic` (and any
`Named` with a nil package) contribute nothing. -/
def populateImports (r : Registry) (t : TypeNode) (imp : List (String × Package)) :
    Registry × List (String × Package) :=
  match t with
  | .named (some p) _ =>
    let rp := r.AddImport p
    (rp.1, mapInsert imp (stripVendorPath p.path) rp.2)
  | .named none _ => (r, imp)
  | .array e => populateImports r e imp
  | .slice e => populateImports r e imp
  | .signature ps rs =>
    let ri := populateImportsList r ps imp
    populateImportsList ri.1 rs ri.2
  | .mapT k v =>
    let ri := populateImports r k imp
    populateImports ri.1 v ri.2
  | .chan e => populateImports r e imp
  | .ptr e => populateImports r e imp
  | .struct fs => populateImportsList r fs imp
  | .iface ms es =>
    let ri := populateImportsList r ms imp
    populateImportsList ri.1 es ri.2
  | .basic _ => (r, imp)
def populateImportsList (r : Registry) (ts : TypeNodeList) (imp : List (String × Package)) :
    Registry × List (String × Package) :=
  match ts with
  | .nil => (r, imp)
  | .cons t ts' =>
    let ri := populateImports r t imp
    populateImportsList ri.1 ts' ri.2
end

mutual
/-- The owning packages of all `Named` nodes reachable in a type-node
graph (the set `populateImports` is meant to capture). -/
def reachPkgs : TypeNode → List GoPackage
  | .named (some p) _ => [p]
  | .named none _ => []
  | .array e => reachPkgs e
  | .slice e => reachPkgs e
  | .ptr e => reachPkgs e
  | .chan e => reachPkgs e
  | .mapT k v => reachPkgs k ++ reachPkgs v
  | .struct fs => reachPkgsList fs
  | .iface ms es => reachPkgsList ms ++ reachPkgsList es
  | .signature ps rs => reachPkgsList ps ++ reachPkgsList rs
  | .basic _ => []
def reachPkgsList : TypeNodeList → List GoPackage
  | .nil => []
  | .cons t ts => reachPkgs t ++ reachPkgsList ts
end

/-- Modelled from the spec: `varNameForType` is called by `varName`
but defined outside `src/`.  Per the spec it synthesizes "a
descriptive token reflecting the type's kind/name" (e.g. an unnamed
`[]byte` parameter yields a slice-of-byte shaped name). -/
def varNameForType : TypeNode → String
  | .basic n => n
  | .named _ n => toLowerStr n
  | .array e => varNameForType e ++ "s"
  | .slice e => varNameForType e ++ "s"
  | .ptr e => varNameForType e
  | .mapT _ _ => "m"
  | .chan e => varNameForType e ++ "Ch"
  | .struct _ => "val"
  | .iface _ _ => "ifaceVal"
  | .signature _ _ => "fn"

/-- The switch cases of `varName` (`package.go` lines 134-142): the
template tokens `mock`/`callInfo`, Go's 25 reserved words, and the
basic scalar type names. -/
def kwList : List String :=
  ["mock", "callInfo", "break", "default", "func", "interface", "select",
   "case", "defer", "go", "map", "struct", "chan", "else", "goto",
   "package", "switch", "const", "fallthrough", "if", "range", "type",
   "continue", "for", "import", "return", "var",
   "string", "bool", "byte", "rune", "uintptr",
   "int", "int8", "int16", "int32", "int64",
   "uint", "uint8", "uint16", "uint32", "uint64",
   "float32", "float64", "complex64", "complex128"]

/-- `varName` (`package.go` lines 126-147): a real declared name (not
empty, not `_`) is used as `name + suffix` unchecked; otherwise a name
is synthesized from the type and, when it lands on a reserved word or
basic type name, `"MiripParam"` is appended. -/
def varName (vr : GoVar) (suffix : String) : String :=
  if vr.name ≠ "" ∧ vr.name ≠ "_" then vr.name ++ suffix
  else
    let nm := varNameForType vr.ty ++ suffix
    if kwList.contains nm then nm ++ "MiripParam" else nm

/-- `MethodScope.searchVar` (`package.go` lines 210-218): first
variable with the given name. -/
def searchVar (vars : List Var) (nm : String) : Option Var :=
  vars.find? fun v => v.Name = nm

/-- The in-place `v.Name += app` performed through the pointer
returned by `searchVar`: rename the first variable carrying `nm`. -/
def renameFirst (vars : List Var) (nm app : String) : List Var :=
  match vars with
  | [] => []
  | v :: vs =>
    if v.Name = nm then { v with Name := v.Name ++ app } :: vs
    else v :: renameFirst vs nm app

/-- `MethodScope.resolveImportVarConflicts` (`package.go` lines
200-208): for each just-touched import, an existing variable whose
name equals the import's qualifier gets `"MirippParam"` appended.  Go
iterates the `imports` map in unspecified order; the embedding
therefore takes the iteration order as an explicit list argument. -/
def resolveImportVarConflicts (vars : List Var) (imprts : List Package) : List Var :=
  imprts.foldl
    (fun vs imprt =>
      if (searchVar vs (Qualifier (some imprt))).isSome then
        renameFirst vs (Qualifier (some imprt)) "MirippParam"
      else vs)
    vars

/-- The probe loop of `resolveVarNameConflict`: starting at `n`, walk
upward while `suggested + itoa n` names an existing variable.  The
fuel argument makes the Go `for n := 1; ; n++` loop structural; the
caller supplies `vars.length + 1`, which always reaches a free index
because distinct indices give distinct candidate names. -/
def findFreeFrom (vars : List Var) (s : String) : Nat → Nat → Nat
  | 0, n => n
  | fuel + 1, n =>
    if (searchVar vars (s ++ itoa n)).isSome then findFreeFrom vars s fuel (n + 1)
    else n

/-- `MethodScope.resolveVarNameConflict` (`package.go` lines 220-235):
find the first free integer suffix; if it is `1`, retroactively rename
the variable holding the bare name (append `"1"`), mark the base name
conflicted, and return `suggested + "2"` without a further freeness
check; otherwise return the first free candidate.  (When the scope has
no variable named `suggested` and suffix 1 is free, the Go code would
dereference a nil pointer; `renameFirst` is then a no-op — no theorem
below relies on that path.) -/
def MethodScope.resolveVarNameConflict (m : MethodScope) (suggested : String) :
    MethodScope × String :=
  let n := findFreeFrom m.vars suggested (m.vars.length + 1) 1
  if n = 1 then
    ({ m with
        vars := renameFirst m.vars suggested "1",
        conflicted := suggested :: m.conflicted },
      suggested ++ itoa 2)
  else (m, suggested ++ itoa n)

/-- `MethodScope.AddVar` (`package.go` lines 102-124): populate the
variable's imports (mutating the registry), resolve import/var
conflicts, compute the candidate name, shield it from package
qualifiers with `"MiripParam"`, resolve variable-name conflicts, and
append the new `Var`.  The registry is threaded explicitly; the
import/var conflict pass receives the imports in association-list
(insertion) order — see `resolveImportVarConflicts` for the map-order
caveat. -/
def MethodScope.AddVar (m : MethodScope) (r : Registry) (vr : GoVar) (suffix : String) :
    MethodScope × Registry × Var :=
  let ri := populateImports r vr.ty []
  let m1 : MethodScope := { m with vars := resolveImportVarConflicts m.vars (ri.2.map (·.2)) }
  let name0 := varName vr suffix
  let name1 := if (ri.1.searchImport name0).isSome then name0 ++ "MiripParam" else name0
  let mn :=
    if (searchVar m1.vars name1).isSome || m1.conflicted.contains name1 then
      m1.resolveVarNameConflict name1
    else (m1, name1)
  let v : Var := ⟨vr, ri.2, m.miripPkgPath, mn.2⟩
  ({ mn.1 with vars := mn.1.vars ++ [v] }, ri.1, v)

/-- Sequence of `AddVar` calls with empty suffix, left to right. -/
def addVars (r : Registry) (m : MethodScope) : List GoVar → Registry × MethodScope
  | [] => (r, m)
  | v :: vs =>
    let step := m.AddVar r v ""
    addVars step.2.1 step.1 vs

example :
    ((addVars ⟨[]⟩ ⟨"", [], []⟩ [⟨"v", .basic "int"⟩]).2.vars.map Var.Name) = ["v"] := by decide
example :
    ((addVars ⟨[]⟩ ⟨"", [], []⟩
      [⟨"v", .basic "int"⟩, ⟨"v", .basic "int"⟩, ⟨"v", .basic "int"⟩]).2.vars.map Var.Name)
      = ["v1", "v2", "v3"] := by decide
example :
    ((addVars ⟨[]⟩ ⟨"", [], []⟩
      [⟨"v2", .basic "int"⟩, ⟨"v", .basic "int"⟩, ⟨"v", .basic "int"⟩]).2.vars.map Var.Name)
      = ["v2", "v1", "v2"] := by decide

end Mirip

namespace Mirip

/-- Filesystem effects the command performs at the output path. -/
inductive FsEvent where
  | removeEv (path : String)
  | writeEv (path : String) (content : List Nat)
deriving DecidableEq

/-- The filesystem as a path-to-bytes table. -/
structure Fs where
  files : List (String × List Nat)
deriving DecidableEq

/-- Content stored at a path, if any. -/
def Fs.lookup (fs : Fs) (p : String) : Option (List Nat) :=
  (fs.files.find? fun e => e.1 = p).map (·.2)

/-- Delete a path (model of a successful `os.Remove`). -/
def Fs.erase (fs : Fs) (p : String) : Fs :=
  ⟨fs.files.filter fun e => e.1 != p⟩

/-- Create or overwrite a path (model of `os.WriteFile`). -/
def Fs.write (fs : Fs) (p : String) (c : List Nat) : Fs :=
  ⟨(fs.erase p).files ++ [(p, c)]⟩

/-- Outcomes of the external collaborators called by `run`:
`mirip.New`, `m.Mock` (the rendered bytes on success), `os.MkdirAll`,
and whether `os.Remove` succeeds when the file exists (false models an
I/O failure other than non-existence). -/
structure MiripOracle where
  newErr : Option String
  mockRes : Except String (List Nat)
  mkdirOk : Bool
  removeOk : Bool

/-- The parsed command flags (`userFlags` in the source). -/
structure UserFlags where
  outFile : String
  pkgName : String
  formatter : String
  stubImpl : Bool
  skipEnsure : Bool
  remove : Bool
  args : List String

/-- `run` from the command entry point (`src/unnamed/part_000` lines
57-103): argument check; optional pre-removal of the output file
(`ErrNotExist` tolerated); `mirip.New`; `m.Mock` writing into an
in-memory buffer whenever an output file is set (stdout otherwise);
only after full success `os.MkdirAll` and one `os.WriteFile` of the
buffered bytes.  Returns the result, the final filesystem, and the
ordered filesystem events at the output path. -/
def run (flags : UserFlags) (o : MiripOracle) (fs : Fs) :
    Except String Unit × Fs × List FsEvent :=
  if flags.args.length < 2 then (.error "not enough arguments", fs, [])
  else
    let rmStep : Except String (Fs × List FsEvent) :=
      if flags.remove ∧ flags.outFile ≠ "" then
        match fs.lookup flags.outFile with
        | none => .ok (fs, [])
        | some _ =>
          if o.removeOk then .ok (fs.erase flags.outFile, [.removeEv flags.outFile])
          else .error "remove failed"
      else .ok (fs, [])
    match rmStep with
    | .error e => (.error e, fs, [])
    | .ok st =>
      match o.newErr with
      | some e => (.error e, st.1, st.2)
      | none =>
        match o.mockRes with
        | .error e => (.error e, st.1, st.2)
        | .ok rendered =>
          if flags.outFile = "" then (.ok (), st.1, st.2)
          else if o.mkdirOk then
            (.ok (), st.1.write flags.outFile rendered,
              st.2 ++ [.writeEv flags.outFile rendered])
          else (.error "mkdir failed", st.1, st.2)

end Mirip

namespace Mirip

theorem strExt {a b : String} (h : a.data = b.data) : a = b := by
  cases a
  cases b
  cases h
  rfl

theorem strApp_data (s t : String) : (s ++ t).data = s.data ++ t.data := rfl

theorem strApp_empty (s : String) : s ++ "" = s := by
  apply strExt
  rw [strApp_data]
  exact List.append_nil _

theorem strApp_left_cancel {s a b : String} (h : s ++ a = s ++ b) : a = b := by
  apply strExt
  have hd : s.data ++ a.data = s.data ++ b.data := by
    rw [← strApp_data, ← strApp_data, h]
  exact List.append_cancel_left hd

theorem itoa_ne_empty (n : Nat) : itoa n ≠ "" := by
  intro h
  exact digitsOf_ne_nil n (congrArg String.data h)

theorem strApp_ne_self {s t : String} (h : t ≠ "") : s ++ t ≠ s := by
  intro he
  apply h
  apply strExt
  have := congrArg String.data he
  rw [strApp_data] at this
  have h2 : s.data ++ t.data = s.data ++ [] := by
    rw [this, List.append_nil]
  exact List.append_cancel_left h2

theorem strApp_itoa_inj {s : String} {n m : Nat}
    (h : s ++ itoa n = s ++ itoa m) : n = m :=
  itoa_injective (strApp_left_cancel h)

theorem contains_iff_mem {l : List String} {a : String} :
    l.contains a = true ↔ a ∈ l := List.elem_iff

theorem searchVar_isSome_iff {vars : List Var} {nm : String} :
    (searchVar vars nm).isSome = true ↔ nm ∈ vars.map Var.Name := by
  unfold searchVar
  rw [List.find?_isSome]
  constructor
  · rintro ⟨v, hv, hp⟩
    simp only [decide_eq_true_eq] at hp
    exact hp ▸ List.mem_map_of_mem Var.Name hv
  · intro h
    rcases List.mem_map.mp h with ⟨v, hv, hn⟩
    exact ⟨v, hv, by simp [hn]⟩

theorem searchVar_eq_none_iff {vars : List Var} {nm : String} :
    searchVar vars nm = none ↔ nm ∉ vars.map Var.Name := by
  unfold searchVar
  rw [List.find?_eq_none]
  constructor
  · intro h hmem
    rcases List.mem_map.mp hmem with ⟨v, hv, hn⟩
    exact h v hv (by simp [hn])
  · intro h v hv hp
    simp only [decide_eq_true_eq] at hp
    exact h (hp ▸ List.mem_map_of_mem Var.Name hv)

theorem findFreeFrom_succ (vars : List Var) (s : String) (fuel n : Nat) :
    findFreeFrom vars s (fuel + 1) n =
      if (searchVar vars (s ++ itoa n)).isSome then findFreeFrom vars s fuel (n + 1)
      else n := rfl

/-- Characterization of the probe loop: if every index from `start` up
to (excluding) `n` is occupied, `n` is free, and the fuel reaches `n`,
the loop returns `n`. -/
theorem findFreeFrom_eq (vars : List Var) (s : String) :
    ∀ fuel start n, start ≤ n → n < start + fuel →
      (∀ j, start ≤ j → j < n → (searchVar vars (s ++ itoa j)).isSome = true) →
      searchVar vars (s ++ itoa n) = none →
      findFreeFrom vars s fuel start = n := by
  intro fuel
  induction fuel with
  | zero =>
    intro start n h1 h2 _ _
    omega
  | succ fuel ih =>
    intro start n h1 h2 hocc hfree
    rw [findFreeFrom_succ]
    by_cases he : start = n
    · subst he
      rw [hfree]
      rfl
    · have hlt : start < n := by omega
      rw [hocc start (Nat.le_refl _) hlt]
      simp only [if_true]
      exact ih (start + 1) n (by omega) (by omega)
        (fun j hj1 hj2 => hocc j (by omega) hj2) hfree

end Mirip

namespace Mirip

/-- If all candidate indices `1..n-1` are occupied by variables, the
scope holds at least `n - 1` variables (distinct indices give distinct
names). -/
theorem occupied_length_bound (vars : List Var) (s : String) (n : Nat)
    (hocc : ∀ j, 1 ≤ j → j < n → (searchVar vars (s ++ itoa j)).isSome = true) :
    n - 1 ≤ vars.length := by
  by_cases hn : n ≤ 1
  · omega
  · have hmaps : ∀ j ∈ Finset.range (n - 1),
        s ++ itoa (j + 1) ∈ (vars.map Var.Name).toFinset := by
      intro j hj
      rw [List.mem_toFinset]
      apply searchVar_isSome_iff.mp
      exact hocc (j + 1) (by omega) (by rw [Finset.mem_range] at hj; omega)
    have hinj : Set.InjOn (fun j => s ++ itoa (j + 1)) (Finset.range (n - 1)) := by
      intro a _ b _ hab
      have := strApp_itoa_inj hab
      omega
    have hcard := Finset.card_le_card_of_injOn _ hmaps hinj
    rw [Finset.card_range] at hcard
    calc n - 1 ≤ (vars.map Var.Name).toFinset.card := hcard
      _ ≤ (vars.map Var.Name).length := List.toFinset_card_le _
      _ = vars.length := List.length_map _ _

/-- C9: when the suggested name's suffix `1` is already taken,
`resolveVarNameConflict` performs no rename, marks nothing conflicted,
and returns the suggested name with the smallest free integer suffix
`n ≥ 2` (all smaller suffixes occupied, `n` free). -/
theorem resolveVarNameConflict_skips_rename (m : MethodScope) (s : String) (n : Nat)
    (h2 : 2 ≤ n)
    (hocc : ∀ j, 1 ≤ j → j < n → (searchVar m.vars (s ++ itoa j)).isSome = true)
    (hfree : searchVar m.vars (s ++ itoa n) = none) :
    m.resolveVarNameConflict s = (m, s ++ itoa n) := by
  have hbound : n - 1 ≤ m.vars.length := occupied_length_bound m.vars s n hocc
  unfold MethodScope.resolveVarNameConflict
  have hfind : findFreeFrom m.vars s (m.vars.length + 1) 1 = n :=
    findFreeFrom_eq m.vars s (m.vars.length + 1) 1 n (by omega) (by omega)
      (fun j hj1 hj2 => hocc j hj1 hj2) hfree
  simp only [hfind]
  rw [if_neg (by omega : ¬ n = 1)]

/-- Witness for C9 at a concrete scope holding `v` and `v1`. -/
theorem resolveVarNameConflict_skips_rename_witness :
    MethodScope.resolveVarNameConflict
        ⟨"", [⟨⟨"v", .basic "int"⟩, [], "", "v"⟩, ⟨⟨"v1", .basic "int"⟩, [], "", "v1"⟩], []⟩ "v"
      = (⟨"", [⟨⟨"v", .basic "int"⟩, [], "", "v"⟩, ⟨⟨"v1", .basic "int"⟩, [], "", "v1"⟩], []⟩,
          "v" ++ itoa 2) :=
  resolveVarNameConflict_skips_rename _ "v" 2 (by omega)
    (by
      intro j h1 hlt
      have hj : j = 1 := by omega
      subst hj
      rfl)
    (by rfl)

end Mirip

namespace Mirip

/-- The repeatedly-added declared variable `v` of basic type. -/
def vVar : GoVar := ⟨"v", .basic "int"⟩

/-- The `Var` record `AddVar` produces for `vVar` in a fresh registry,
up to its allocated name. -/
def mkV (nm : String) : Var := ⟨vVar, [], "", nm⟩

theorem AddVar_basic (m : MethodScope) (nm b suffix : String) :
    MethodScope.AddVar m ⟨[]⟩ ⟨nm, .basic b⟩ suffix =
      (let name0 := varName ⟨nm, .basic b⟩ suffix
       let mn :=
         if (searchVar m.vars name0).isSome || m.conflicted.contains name0 then
           m.resolveVarNameConflict name0
         else (m, name0)
       ({ mn.1 with vars := mn.1.vars ++ [⟨⟨nm, .basic b⟩, [], m.miripPkgPath, mn.2⟩] },
        (⟨[]⟩ : Registry), ⟨⟨nm, .basic b⟩, [], m.miripPkgPath, mn.2⟩)) := rfl

theorem addVars_append (r : Registry) (m : MethodScope) (xs ys : List GoVar) :
    addVars r m (xs ++ ys) = addVars (addVars r m xs).1 (addVars r m xs).2 ys := by
  induction xs generalizing r m with
  | nil => rfl
  | cons x xs ih =>
    simp only [List.cons_append, addVars]
    exact ih _ _

theorem mkV_names (k : Nat) :
    ((List.range k).map (fun i => mkV ("v" ++ itoa (i + 1)))).map Var.Name
      = (List.range k).map (fun i => "v" ++ itoa (i + 1)) := by
  rw [List.map_map]
  rfl

/-- State invariant of repeatedly adding `v` to a fresh scope: after
`k + 2` additions the vars are exactly `v1, ..., v(k+2)` (the first
one retroactively renamed) and `v` is marked conflicted. -/
theorem addVars_v_state (k : Nat) :
    addVars ⟨[]⟩ ⟨"", [], []⟩ (List.replicate (k + 2) vVar)
      = (⟨[]⟩, ⟨"", (List.range (k + 2)).map (fun i => mkV ("v" ++ itoa (i + 1))), ["v"]⟩) := by
  induction k with
  | zero => rfl
  | succ k ih =>
    have hrep : List.replicate (k + 1 + 2) vVar = List.replicate (k + 2) vVar ++ [vVar] :=
      List.replicate_succ' (k + 2) vVar
    rw [hrep, addVars_append, ih]
    have hname : varName ⟨"v", TypeNode.basic "int"⟩ "" = "v" := rfl
    have hsv : searchVar ((List.range (k + 2)).map (fun i => mkV ("v" ++ itoa (i + 1)))) "v"
        = none := by
      apply searchVar_eq_none_iff.mpr
      rw [mkV_names]
      intro hmem
      rcases List.mem_map.mp hmem with ⟨i, _, hn⟩
      exact strApp_ne_self (itoa_ne_empty (i + 1)) hn
    have hlen : ((List.range (k + 2)).map (fun i => mkV ("v" ++ itoa (i + 1)))).length
        = k + 2 := by
      rw [List.length_map, List.length_range]
    have hocc : ∀ j, 1 ≤ j → j < k + 3 →
        (searchVar ((List.range (k + 2)).map (fun i => mkV ("v" ++ itoa (i + 1))))
          ("v" ++ itoa j)).isSome = true := by
      intro j hj1 hj2
      apply searchVar_isSome_iff.mpr
      rw [mkV_names]
      apply List.mem_map.mpr
      refine ⟨j - 1, List.mem_range.mpr (by omega), ?_⟩
      have hj : j - 1 + 1 = j := by omega
      rw [hj]
    have hfreeTop : searchVar ((List.range (k + 2)).map (fun i => mkV ("v" ++ itoa (i + 1))))
        ("v" ++ itoa (k + 3)) = none := by
      apply searchVar_eq_none_iff.mpr
      rw [mkV_names]
      intro hmem
      rcases List.mem_map.mp hmem with ⟨i, hi, hn⟩
      have := strApp_itoa_inj hn
      rw [List.mem_range] at hi
      omega
    have hfind : findFreeFrom ((List.range (k + 2)).map (fun i => mkV ("v" ++ itoa (i + 1))))
        "v" (((List.range (k + 2)).map (fun i => mkV ("v" ++ itoa (i + 1)))).length + 1) 1
        = k + 3 := by
      rw [hlen]
      exact findFreeFrom_eq _ "v" (k + 3) 1 (k + 3) (by omega) (by omega) hocc hfreeTop
    have hres : MethodScope.resolveVarNameConflict
        ⟨"", (List.range (k + 2)).map (fun i => mkV ("v" ++ itoa (i + 1))), ["v"]⟩ "v"
        = (⟨"", (List.range (k + 2)).map (fun i => mkV ("v" ++ itoa (i + 1))), ["v"]⟩,
            "v" ++ itoa (k + 3)) := by
      unfold MethodScope.resolveVarNameConflict
      simp only [hfind]
      rw [if_neg (by omega : ¬ k + 3 = 1)]
    simp only [addVars, vVar, AddVar_basic, hname, hsv, Option.isSome_none, Bool.false_or]
    have hconf : (["v"].contains "v") = true := rfl
    simp only [hconf, eq_self_iff_true, if_true, hres]
    have hvar : (⟨⟨"v", TypeNode.basic "int"⟩, [], "", "v" ++ itoa (k + 3)⟩ : Var)
        = mkV ("v" ++ itoa (k + 3)) := rfl
    rw [hvar]
    have hsnoc : (List.range (k + 2)).map (fun i => mkV ("v" ++ itoa (i + 1)))
          ++ [mkV ("v" ++ itoa (k + 3))]
        = (List.range (k + 2 + 1)).map (fun i => mkV ("v" ++ itoa (i + 1))) := by
      rw [List.range_succ (k + 2), List.map_append]
      rfl
    rw [hsnoc]

end Mirip

namespace Mirip

/-- When the vendor-stripped path splits into a single segment, every
depth level yields the same sanitized lower-cased name. -/
theorem uniqueName_single (p : Package) (s : String)
    (hs : (strSegs (pkgPath (some p))).reverse = [s]) :
    ∀ lvl, p.uniqueName lvl = toLowerStr ⟨replaceChars s.data⟩ := by
  intro lvl
  simp only [Package.uniqueName]
  rw [hs]
  have hlen : ([s] : List String).length = 1 := rfl
  rw [hlen]
  have hmin : min 1 (lvl + 1) = 1 := by omega
  rw [hmin]
  rw [show ([s] : List String).take 1 = [s] from rfl]
  simp only [List.foldl_cons, List.foldl_nil]
  exact strApp_empty _

/-- C1: the code_bug evidence.  The import paths `ab` and `a-b` are
distinct (also after vendor stripping), yet `uniqueName` yields the
same candidate at every depth level, because the sanitizer deletes the
`-`; so depth escalation can never separate them, contradicting the
claimed (and code-commented) uniqueness guarantee. -/
theorem uniqueName_cannot_separate_stripped_paths :
    pkgPath (some ⟨⟨"ab", "ab"⟩, ""⟩) ≠ pkgPath (some ⟨⟨"a-b", "ab"⟩, ""⟩)
    ∧ ∀ lvl, Package.uniqueName ⟨⟨"ab", "ab"⟩, ""⟩ lvl
        = Package.uniqueName ⟨⟨"a-b", "ab"⟩, ""⟩ lvl := by
  constructor
  · decide
  · intro lvl
    rw [uniqueName_single ⟨⟨"ab", "ab"⟩, ""⟩ "ab" (by rfl) lvl,
        uniqueName_single ⟨⟨"a-b", "ab"⟩, ""⟩ "a-b" (by rfl) lvl]
    decide

/-- A scope variable named `a` (no imports involved). -/
def varA : Var := ⟨⟨"a", .basic "int"⟩, [], "", "a"⟩

/-- A registered package whose qualifier is `a`. -/
def pkgQa : Package := ⟨⟨"x/a", "a"⟩, ""⟩

/-- A registered package whose qualifier is `aMirippParam`. -/
def pkgQam : Package := ⟨⟨"y/aMirippParam", "aMirippParam"⟩, ""⟩

/-- C2: the code_bug evidence.  `resolveImportVarConflicts` iterates a
Go map; with a variable named `a` and touched imports qualified `a`
and `aMirippParam`, the two enumeration orders of the same import set
produce different final variable names (`aMirippParamMirippParam`
versus `aMirippParam`), so the allocator's output depends on map
enumeration order. -/
theorem resolveImportVarConflicts_order_dependent :
    ([pkgQa, pkgQam] : List Package).Perm [pkgQam, pkgQa]
    ∧ (resolveImportVarConflicts [varA] [pkgQa, pkgQam]).map Var.Name
      ≠ (resolveImportVarConflicts [varA] [pkgQam, pkgQa]).map Var.Name := by
  constructor
  · exact List.Perm.swap pkgQam pkgQa []
  · decide

/-- C3: the code_bug evidence.  Three `AddVar` calls with declared
names `v2`, `v`, `v` on a fresh scope end with variable names
`v2, v1, v2`: the conflict resolution renames the second variable to
`v1` and hands the third the name `v2` without noticing the first
variable already holds it, so scope names are not pairwise distinct,
contradicting `AddVar`'s own documentation. -/
theorem addVar_duplicate_names :
    ((addVars ⟨[]⟩ ⟨"", [], []⟩
        [⟨"v2", .basic "int"⟩, ⟨"v", .basic "int"⟩, ⟨"v", .basic "int"⟩]).2.vars.map Var.Name
      = ["v2", "v1", "v2"])
    ∧ ¬ ((addVars ⟨[]⟩ ⟨"", [], []⟩
        [⟨"v2", .basic "int"⟩, ⟨"v", .basic "int"⟩, ⟨"v", .basic "int"⟩]).2.vars.map
          Var.Name).Nodup := by
  exact ⟨by decide, by decide⟩

/-- C4 counterexample: a parameter declared `int` (a basic scalar type
name) keeps its name verbatim — `AddVar` returns a `Var` literally
named `int`, because the reserved-word switch only guards the
synthesized-name branch. -/
theorem addVar_declared_basic_type_name :
    (MethodScope.AddVar ⟨"", [], []⟩ ⟨[]⟩ ⟨"int", .basic "int"⟩ "").2.2.Name = "int"
    ∧ "int" ∈ kwList := by
  exact ⟨rfl, by decide⟩

/-- C4 (amended): for a variable whose declared name is blank or the
discard placeholder `_`, the synthesized name is never exactly a
reserved word or basic type name — `"MiripParam"` is appended whenever
the candidate matches one. -/
theorem varName_synthesized_not_reserved (vr : GoVar) (suffix : String)
    (h : vr.name = "" ∨ vr.name = "_") : varName vr suffix ∉ kwList := by
  intro hmem
  have hcond : ¬ (vr.name ≠ "" ∧ vr.name ≠ "_") := by
    rcases h with h | h <;> simp [h]
  simp only [varName, if_neg hcond] at hmem
  by_cases hk : kwList.contains (varNameForType vr.ty ++ suffix) = true
  · rw [if_pos hk] at hmem
    have hsuffix : ∀ k ∈ kwList, ¬ ("MiripParam".data <:+ k.data) := by decide
    exact hsuffix _ hmem ⟨(varNameForType vr.ty ++ suffix).data, (strApp_data _ _).symm⟩
  · rw [if_neg hk] at hmem
    exact hk (contains_iff_mem.mpr hmem)

/-- Witness for C4 at an unnamed `int`-typed variable. -/
theorem varName_synthesized_not_reserved_witness :
    varName ⟨"", .basic "int"⟩ "" ∉ kwList :=
  varName_synthesized_not_reserved ⟨"", .basic "int"⟩ "" (Or.inl rfl)

/-- C5 counterexample: with variables `x` and `x2` in scope (and no
`x1`), resolving a collision on `x` renames `x` to `x1` and returns
`x2` without checking it — the returned name is already occupied, so
the probing does not continue "until free". -/
theorem resolveVarNameConflict_returns_occupied :
    (MethodScope.resolveVarNameConflict
        ⟨"", [⟨⟨"x", .basic "int"⟩, [], "", "x"⟩, ⟨⟨"x2", .basic "int"⟩, [], "", "x2"⟩], []⟩
        "x").2 = "x2"
    ∧ (searchVar (MethodScope.resolveVarNameConflict
        ⟨"", [⟨⟨"x", .basic "int"⟩, [], "", "x"⟩, ⟨⟨"x2", .basic "int"⟩, [], "", "x2"⟩], []⟩
        "x").1.vars "x2").isSome = true := by
  exact ⟨rfl, rfl⟩

/-- C5 (amended): in a scope free of integer-suffixed `v` names,
repeated additions of the base name `v` yield exactly the consecutive
names `v1, v2, ..., v(k+2)` (the first addition retroactively renamed
to `v1`) with `v` marked conflicted — no suffix skipped. -/
theorem addVar_consecutive_suffixes (k : Nat) :
    ((addVars ⟨[]⟩ ⟨"", [], []⟩ (List.replicate (k + 2) vVar)).2.vars.map Var.Name
      = (List.range (k + 2)).map fun i => "v" ++ itoa (i + 1))
    ∧ (addVars ⟨[]⟩ ⟨"", [], []⟩ (List.replicate (k + 2) vVar)).2.conflicted = ["v"] := by
  rw [addVars_v_state k]
  exact ⟨mkV_names (k + 2), rfl⟩

end Mirip

namespace Mirip

theorem keys_map_update (imp : List (String × Package)) (k : String) (v : Package) :
    ((imp.map fun e => if e.1 = k then (k, v) else e).map Prod.fst) = imp.map Prod.fst := by
  induction imp with
  | nil => rfl
  | cons e es ih =>
    simp only [List.map_cons]
    by_cases h : e.1 = k
    · rw [if_pos h, ih, ← h]
    · rw [if_neg h, ih]

theorem mem_keys_mapInsert (imp : List (String × Package)) (k k' : String) (v : Package)
    (h : k' ∈ imp.map Prod.fst) : k' ∈ (mapInsert imp k v).map Prod.fst := by
  unfold mapInsert
  by_cases hf : (imp.find? fun e => e.1 = k).isSome = true
  · rw [if_pos hf, keys_map_update]
    exact h
  · rw [if_neg hf, List.map_append]
    exact List.mem_append_left _ h

theorem mem_keys_mapInsert_self (imp : List (String × Package)) (k : String) (v : Package) :
    k ∈ (mapInsert imp k v).map Prod.fst := by
  unfold mapInsert
  by_cases hf : (imp.find? fun e => e.1 = k).isSome = true
  · rw [if_pos hf, keys_map_update]
    rw [List.find?_isSome] at hf
    rcases hf with ⟨e, he, hp⟩
    simp only [decide_eq_true_eq] at hp
    exact hp ▸ List.mem_map_of_mem Prod.fst he
  · rw [if_neg hf, List.map_append]
    apply List.mem_append_right
    simp

theorem addImport_path_mem (r : Registry) (p : GoPackage) :
    stripVendorPath p.path ∈ (r.AddImport p).1.imports.map Prod.fst := by
  unfold Registry.AddImport
  cases hf : r.imports.find? (fun e => e.1 = stripVendorPath p.path) with
  | some e =>
    simp only [hf]
    have hmem := List.mem_of_find?_eq_some hf
    have hp := List.find?_some hf
    simp only [decide_eq_true_eq] at hp
    exact hp ▸ List.mem_map_of_mem Prod.fst hmem
  | none =>
    simp only [hf, List.map_append]
    apply List.mem_append_right
    simp

theorem addImport_keys_mono (r : Registry) (p : GoPackage) (k : String)
    (h : k ∈ r.imports.map Prod.fst) : k ∈ (r.AddImport p).1.imports.map Prod.fst := by
  unfold Registry.AddImport
  cases hf : r.imports.find? (fun e => e.1 = stripVendorPath p.path) with
  | some e => simpa only [hf] using h
  | none =>
    simp only [hf, List.map_append]
    exact List.mem_append_left _ h

mutual
/-- `populateImports` never drops keys: membership in the imports map
and in the registry table is preserved. -/
theorem populate_keys_mono (r : Registry) (t : TypeNode) (imp : List (String × Package))
    (k : String) :
    (k ∈ imp.map Prod.fst → k ∈ (populateImports r t imp).2.map Prod.fst)
    ∧ (k ∈ r.imports.map Prod.fst → k ∈ (populateImports r t imp).1.imports.map Prod.fst) :=
  match t with
  | .named (some p) _ => by
    simp only [populateImports]
    exact ⟨mem_keys_mapInsert imp (stripVendorPath p.path) k _,
           addImport_keys_mono r p k⟩
  | .named none _ => by
    simp only [populateImports]
    exact ⟨id, id⟩
  | .basic _ => by
    simp only [populateImports]
    exact ⟨id, id⟩
  | .array e => by
    simp only [populateImports]
    exact populate_keys_mono r e imp k
  | .slice e => by
    simp only [populateImports]
    exact populate_keys_mono r e imp k
  | .ptr e => by
    simp only [populateImports]
    exact populate_keys_mono r e imp k
  | .chan e => by
    simp only [populateImports]
    exact populate_keys_mono r e imp k
  | .mapT a b => by
    simp only [populateImports]
    have h1 := populate_keys_mono r a imp k
    have h2 := populate_keys_mono (populateImports r a imp).1 b (populateImports r a imp).2 k
    exact ⟨fun h => h2.1 (h1.1 h), fun h => h2.2 (h1.2 h)⟩
  | .struct fs => by
    simp only [populateImports]
    exact populate_keys_mono_list r fs imp k
  | .iface ms es => by
    simp only [populateImports]
    have h1 := populate_keys_mono_list r ms imp k
    have h2 := populate_keys_mono_list (populateImportsList r ms imp).1 es
      (populateImportsList r ms imp).2 k
    exact ⟨fun h => h2.1 (h1.1 h), fun h => h2.2 (h1.2 h)⟩
  | .signature ps rs => by
    simp only [populateImports]
    have h1 := populate_keys_mono_list r ps imp k
    have h2 := populate_keys_mono_list (populateImportsList r ps imp).1 rs
      (populateImportsList r ps imp).2 k
    exact ⟨fun h => h2.1 (h1.1 h), fun h => h2.2 (h1.2 h)⟩
theorem populate_keys_mono_list (r : Registry) (ts : TypeNodeList)
    (imp : List (String × Package)) (k : String) :
    (k ∈ imp.map Prod.fst → k ∈ (populateImportsList r ts imp).2.map Prod.fst)
    ∧ (k ∈ r.imports.map Prod.fst →
        k ∈ (populateImportsList r ts imp).1.imports.map Prod.fst) :=
  match ts with
  | .nil => by
    simp only [populateImportsList]
    exact ⟨id, id⟩
  | .cons t ts' => by
    simp only [populateImportsList]
    have h1 := populate_keys_mono r t imp k
    have h2 := populate_keys_mono_list (populateImports r t imp).1 ts'
      (populateImports r t imp).2 k
    exact ⟨fun h => h2.1 (h1.1 h), fun h => h2.2 (h1.2 h)⟩
end

end Mirip

namespace Mirip

mutual
/-- Every package owning a reachable `Named` node ends up (under its
vendor-stripped path) both in the per-variable imports map and in the
registry table. -/
theorem populate_complete (r : Registry) (t : TypeNode) (imp : List (String × Package))
    (p : GoPackage) (h : p ∈ reachPkgs t) :
    stripVendorPath p.path ∈ (populateImports r t imp).2.map Prod.fst
    ∧ stripVendorPath p.path ∈ (populateImports r t imp).1.imports.map Prod.fst :=
  match t, h with
  | .named (some q) _, h => by
    simp only [reachPkgs, List.mem_singleton] at h
    subst h
    simp only [populateImports]
    exact ⟨mem_keys_mapInsert_self _ _ _, addImport_path_mem r p⟩
  | .array e, h => by
    simp only [reachPkgs] at h
    simp only [populateImports]
    exact populate_complete r e imp p h
  | .slice e, h => by
    simp only [reachPkgs] at h
    simp only [populateImports]
    exact populate_complete r e imp p h
  | .ptr e, h => by
    simp only [reachPkgs] at h
    simp only [populateImports]
    exact populate_complete r e imp p h
  | .chan e, h => by
    simp only [reachPkgs] at h
    simp only [populateImports]
    exact populate_complete r e imp p h
  | .mapT a b, h => by
    simp only [reachPkgs] at h
    simp only [populateImports]
    rcases List.mem_append.mp h with h | h
    · have h1 := populate_complete r a imp p h
      have h2 := populate_keys_mono (populateImports r a imp).1 b (populateImports r a imp).2
        (stripVendorPath p.path)
      exact ⟨h2.1 h1.1, h2.2 h1.2⟩
    · exact populate_complete (populateImports r a imp).1 b (populateImports r a imp).2 p h
  | .struct fs, h => by
    simp only [reachPkgs] at h
    simp only [populateImports]
    exact populate_complete_list r fs imp p h
  | .iface ms es, h => by
    simp only [reachPkgs] at h
    simp only [populateImports]
    rcases List.mem_append.mp h with h | h
    · have h1 := populate_complete_list r ms imp p h
      have h2 := populate_keys_mono_list (populateImportsList r ms imp).1 es
        (populateImportsList r ms imp).2 (stripVendorPath p.path)
      exact ⟨h2.1 h1.1, h2.2 h1.2⟩
    · exact populate_complete_list (populateImportsList r ms imp).1 es
        (populateImportsList r ms imp).2 p h
  | .signature ps rs, h => by
    simp only [reachPkgs] at h
    simp only [populateImports]
    rcases List.mem_append.mp h with h | h
    · have h1 := populate_complete_list r ps imp p h
      have h2 := populate_keys_mono_list (populateImportsList r ps imp).1 rs
        (populateImportsList r ps imp).2 (stripVendorPath p.path)
      exact ⟨h2.1 h1.1, h2.2 h1.2⟩
    · exact populate_complete_list (populateImportsList r ps imp).1 rs
        (populateImportsList r ps imp).2 p h
theorem populate_complete_list (r : Registry) (ts : TypeNodeList)
    (imp : List (String × Package)) (p : GoPackage) (h : p ∈ reachPkgsList ts) :
    stripVendorPath p.path ∈ (populateImportsList r ts imp).2.map Prod.fst
    ∧ stripVendorPath p.path ∈ (populateImportsList r ts imp).1.imports.map Prod.fst :=
  match ts, h with
  | .cons t ts', h => by
    simp only [reachPkgsList] at h
    simp only [populateImportsList]
    rcases List.mem_append.mp h with h | h
    · have h1 := populate_complete r t imp p h
      have h2 := populate_keys_mono_list (populateImports r t imp).1 ts'
        (populateImports r t imp).2 (stripVendorPath p.path)
      exact ⟨h2.1 h1.1, h2.2 h1.2⟩
    · exact populate_complete_list (populateImports r t imp).1 ts'
        (populateImports r t imp).2 p h
end

/-- C6: for every type node, every package owning a `Named` type
reachable anywhere in the graph — through pointers, arrays, slices,
maps (key and value), channels, anonymous structs, anonymous
interfaces (methods and embedded types), and signatures (params and
results) — is recorded in the variable's dependent-import map and
registered with the registry after `populateImports` runs. -/
theorem populateImports_registers_all (t : TypeNode) (r : Registry)
    (imp : List (String × Package)) (p : GoPackage) (h : p ∈ reachPkgs t) :
    stripVendorPath p.path ∈ (populateImports r t imp).2.map Prod.fst
    ∧ stripVendorPath p.path ∈ (populateImports r t imp).1.imports.map Prod.fst :=
  populate_complete r t imp p h

/-- Witness for C6: a package buried under pointer/map/slice/struct
nesting (with a vendored path) is registered. -/
theorem populateImports_registers_all_witness :
    stripVendorPath "a/vendor/q/r"
      ∈ (populateImports ⟨[]⟩
          (.ptr (.mapT (.basic "int")
            (.struct (.cons (.slice (.named (some ⟨"a/vendor/q/r", "r"⟩) "T")) .nil)))) []).2.map
        Prod.fst
    ∧ stripVendorPath "a/vendor/q/r"
      ∈ (populateImports ⟨[]⟩
          (.ptr (.mapT (.basic "int")
            (.struct (.cons (.slice (.named (some ⟨"a/vendor/q/r", "r"⟩) "T")) .nil)))) []).1.imports.map
        Prod.fst :=
  populateImports_registers_all _ ⟨[]⟩ [] ⟨"a/vendor/q/r", "r"⟩ (by decide)

end Mirip

namespace Mirip

/-- C7: `Qualifier` returns `""` for a nil package, the alias whenever
one is set, and the declared short name otherwise. -/
theorem qualifier_cases :
    Qualifier none = ""
    ∧ (∀ p : Package, p.Alias ≠ "" → Qualifier (some p) = p.Alias)
    ∧ (∀ p : Package, p.Alias = "" → Qualifier (some p) = p.pkg.name) := by
  refine ⟨rfl, fun p h => ?_, fun p h => ?_⟩
  · simp [Qualifier, h]
  · simp [Qualifier, h]

/-- Witness for C7 on an aliased and an alias-free package. -/
theorem qualifier_cases_witness :
    Qualifier (some ⟨⟨"a/b", "b"⟩, "custom"⟩) = "custom"
    ∧ Qualifier (some ⟨⟨"a/b", "b"⟩, ""⟩) = "b" :=
  ⟨qualifier_cases.2.1 ⟨⟨"a/b", "b"⟩, "custom"⟩ (by decide),
   qualifier_cases.2.2 ⟨⟨"a/b", "b"⟩, ""⟩ rfl⟩

theorem lookup_erase (fs : Fs) (p : String) : (fs.erase p).lookup p = none := by
  unfold Fs.erase Fs.lookup
  simp only [Option.map_eq_none']
  apply List.find?_eq_none.mpr
  intro x hx
  rw [List.mem_filter] at hx
  have hne : x.1 ≠ p := by
    have := hx.2
    simp only [bne_iff_ne, ne_eq] at this
    exact this
  simp [hne]

/-- C8: whenever an output file is set and generation (`mirip.New` or
`Mock`) fails, `run` returns an error, performs no write to the
filesystem, and the content at the output path is either untouched or
(only under the remove flag) deleted — never partial output. -/
theorem run_buffers_output (flags : UserFlags) (o : MiripOracle) (fs : Fs)
    (_hout : flags.outFile ≠ "")
    (hgen : o.newErr ≠ none ∨ ∃ e, o.mockRes = Except.error e) :
    (∃ e, (run flags o fs).1 = Except.error e)
    ∧ (∀ p c, FsEvent.writeEv p c ∉ (run flags o fs).2.2)
    ∧ ((run flags o fs).2.1.lookup flags.outFile = fs.lookup flags.outFile
       ∨ (run flags o fs).2.1.lookup flags.outFile = none) := by
  have hmain : ∃ e, run flags o fs = (Except.error e, fs, [])
      ∨ run flags o fs
          = (Except.error e, fs.erase flags.outFile, [FsEvent.removeEv flags.outFile]) := by
    by_cases hargs : flags.args.length < 2
    · exact ⟨"not enough arguments", Or.inl (by simp only [run, if_pos hargs])⟩
    · have hgenErr : ∀ st : Fs × List FsEvent,
          (∃ e, (match o.newErr with
            | some e => (Except.error e, st.1, st.2)
            | none =>
              match o.mockRes with
              | .error e => ((Except.error e : Except String Unit), st.1, st.2)
              | .ok rendered =>
                if flags.outFile = "" then (Except.ok (), st.1, st.2)
                else if o.mkdirOk then
                  (Except.ok (), st.1.write flags.outFile rendered,
                    st.2 ++ [FsEvent.writeEv flags.outFile rendered])
                else (Except.error "mkdir failed", st.1, st.2))
            = ((Except.error e : Except String Unit), st.1, st.2)) := by
        intro st
        cases hne : o.newErr with
        | some e => exact ⟨e, rfl⟩
        | none =>
          cases hmo : o.mockRes with
          | error e => exact ⟨e, rfl⟩
          | ok bs =>
            exfalso
            rcases hgen with h | ⟨e, he⟩
            · exact h hne
            · rw [hmo] at he
              exact Except.noConfusion he
      by_cases hrm : flags.remove = true ∧ flags.outFile ≠ ""
      · cases hlk : fs.lookup flags.outFile with
        | none =>
          rcases hgenErr (fs, []) with ⟨e, he⟩
          refine ⟨e, Or.inl ?_⟩
          simp only [run, if_neg hargs, if_pos hrm, hlk]
          exact he
        | some c =>
          by_cases hro : o.removeOk = true
          · rcases hgenErr (fs.erase flags.outFile, [FsEvent.removeEv flags.outFile])
              with ⟨e, he⟩
            refine ⟨e, Or.inr ?_⟩
            simp only [run, if_neg hargs, if_pos hrm, hlk, if_pos hro]
            exact he
          · refine ⟨"remove failed", Or.inl ?_⟩
            simp only [run, if_neg hargs, if_pos hrm, hlk, if_neg hro]
      · rcases hgenErr (fs, []) with ⟨e, he⟩
        refine ⟨e, Or.inl ?_⟩
        simp only [run, if_neg hargs, if_neg hrm]
        exact he
  rcases hmain with ⟨e, h | h⟩ <;> rw [h]
  · exact ⟨⟨e, rfl⟩, by intro p c hc; simp at hc, Or.inl rfl⟩
  · exact ⟨⟨e, rfl⟩, by intro p c hc; simp at hc, Or.inr (lookup_erase fs flags.outFile)⟩

/-- Witness for C8: a failing `Mock` with an existing output file
leaves the file untouched and returns the error. -/
theorem run_buffers_output_witness :
    (∃ e, (run ⟨"out.go", "", "", false, false, false, ["dir", "Iface"]⟩
        ⟨none, Except.error "boom", true, true⟩ ⟨[("out.go", [1, 2])]⟩).1 = Except.error e)
    ∧ (∀ p c, FsEvent.writeEv p c
        ∉ (run ⟨"out.go", "", "", false, false, false, ["dir", "Iface"]⟩
            ⟨none, Except.error "boom", true, true⟩ ⟨[("out.go", [1, 2])]⟩).2.2)
    ∧ ((run ⟨"out.go", "", "", false, false, false, ["dir", "Iface"]⟩
          ⟨none, Except.error "boom", true, true⟩ ⟨[("out.go", [1, 2])]⟩).2.1.lookup "out.go"
        = Fs.lookup ⟨[("out.go", [1, 2])]⟩ "out.go"
       ∨ (run ⟨"out.go", "", "", false, false, false, ["dir", "Iface"]⟩
          ⟨none, Except.error "boom", true, true⟩ ⟨[("out.go", [1, 2])]⟩).2.1.lookup "out.go"
        = none) :=
  run_buffers_output ⟨"out.go", "", "", false, false, false, ["dir", "Iface"]⟩
    ⟨none, Except.error "boom", true, true⟩ ⟨[("out.go", [1, 2])]⟩
    (by decide) (Or.inr ⟨"boom", rfl⟩)

/-- C10: with the remove flag and an output file set, a missing output
file is not an error (generation proceeds and succeeds when the
collaborators succeed); and when generation fails after the removal,
the error is returned and the output path holds no file — the previous
content is not restored. -/
theorem run_remove_flag (flags : UserFlags) (o : MiripOracle) (fs : Fs)
    (bs : List Nat) (e : String)
    (hrm : flags.remove = true) (hout : flags.outFile ≠ "")
    (hargs : ¬ flags.args.length < 2) :
    ((fs.lookup flags.outFile = none ∧ o.newErr = none ∧ o.mockRes = Except.ok bs
        ∧ o.mkdirOk = true) → (run flags o fs).1 = Except.ok ())
    ∧ ((o.removeOk = true ∧ o.newErr = none ∧ o.mockRes = Except.error e) →
        ((run flags o fs).1 = Except.error e
         ∧ (run flags o fs).2.1.lookup flags.outFile = none)) := by
  constructor
  · rintro ⟨hlk, hne, hmo, hmk⟩
    simp only [run, if_neg hargs, if_pos (And.intro hrm hout), hlk, hne, hmo,
      if_neg hout, if_pos hmk]
  · rintro ⟨hro, hne, hmo⟩
    cases hlk : fs.lookup flags.outFile with
    | none =>
      constructor
      · simp only [run, if_neg hargs, if_pos (And.intro hrm hout), hlk, hne, hmo]
      · simp only [run, if_neg hargs, if_pos (And.intro hrm hout), hlk, hne, hmo]
    | some c =>
      constructor
      · simp only [run, if_neg hargs, if_pos (And.intro hrm hout), hlk, if_pos hro, hne, hmo]
      · simp only [run, if_neg hargs, if_pos (And.intro hrm hout), hlk, if_pos hro, hne, hmo]
        exact lookup_erase fs flags.outFile

/-- Witness for C10, exercising both branches with the remove flag
set: with the output file missing and all collaborators succeeding,
`run` succeeds (missing file is not an error); with a pre-existing
output file and a failing `Mock`, `run` returns that error and leaves
no file at the output path. -/
theorem run_remove_flag_witness :
    (run ⟨"out.go", "", "", false, false, true, ["dir", "Iface"]⟩
        ⟨none, Except.ok [9], true, true⟩ ⟨[]⟩).1 = Except.ok ()
    ∧ ((run ⟨"out.go", "", "", false, false, true, ["dir", "Iface"]⟩
          ⟨none, Except.error "boom", true, true⟩ ⟨[("out.go", [7])]⟩).1
        = Except.error "boom"
      ∧ (run ⟨"out.go", "", "", false, false, true, ["dir", "Iface"]⟩
          ⟨none, Except.error "boom", true, true⟩ ⟨[("out.go", [7])]⟩).2.1.lookup "out.go"
        = none) :=
  ⟨(run_remove_flag ⟨"out.go", "", "", false, false, true, ["dir", "Iface"]⟩
      ⟨none, Except.ok [9], true, true⟩ ⟨[]⟩ [9] "unused" rfl (by decide) (by decide)).1
      ⟨rfl, rfl, rfl, rfl⟩,
   (run_remove_flag ⟨"out.go", "", "", false, false, true, ["dir", "Iface"]⟩
      ⟨none, Except.error "boom", true, true⟩ ⟨[("out.go", [7])]⟩ [9] "boom" rfl
      (by decide) (by decide)).2
      ⟨rfl, rfl, rfl⟩⟩

end Mirip
